import Mathlib

/-!
Shallow embedding of the LDMX particle-flow student code
(`PFTrackProducer.cxx` and `ParticleFlow.h`).

Doubles are modelled by exact rationals; the C++ `getP` (a square root of a
sum of squares) is handled through its square `getP2`, since the comparator
`getP a > getP b` is equivalent to `getP2 a > getP2 b` on nonnegative reals.
-/

namespace Recon

/-- A 3-vector with rational components; index 0/1/2 of the C++
`std::vector<double>` become fields `x`/`y`/`z`. -/
structure Vec3 where
  x : ℚ
  y : ℚ
  z : ℚ
deriving DecidableEq, Repr

/-- The record `ldmx::SimTrackerHit`, restricted to the attributes the code reads:
momentum, position, PDG id and originating-track id. -/
structure SimTrackerHit where
  trackID : Int
  pdgID : Int
  position : Vec3
  momentum : Vec3
deriving DecidableEq, Repr

/-- The square of `getP` from `PFTrackProducer.cxx`:
`sqrt(pow(pxyz[0],2)+pow(pxyz[1],2)+pow(pxyz[2],2))` squared. -/
def getP2 (tk : SimTrackerHit) : ℚ :=
  tk.momentum.x ^ 2 + tk.momentum.y ^ 2 + tk.momentum.z ^ 2

/-- The four selection filters of the truth-tracking loop, as one predicate:
originating track id is 1, the longitudinal position is within 0.1 of 240,
the longitudinal momentum is strictly positive, and the PDG id is neither
22 (photon) nor 2112 (neutron). -/
def passesFilters (h : SimTrackerHit) : Prop :=
  h.trackID = 1 ∧ |240 - h.position.z| ≤ 1/10 ∧ 0 < h.momentum.z ∧
    h.pdgID ≠ 22 ∧ h.pdgID ≠ 2112

instance (h : SimTrackerHit) : Decidable (passesFilters h) := by
  unfold passesFilters; infer_instance

/-- The first loop of `PFTrackProducer::produce` over `ecalSpHits`:
`continue` on either rejection condition, otherwise push the hit and
`break`.  Returns the pushed hit, if any. -/
def ecalTrackLoop : List SimTrackerHit → Option SimTrackerHit
  | [] => none
  | spHit :: rest =>
    if spHit.trackID ≠ 1 ∨ |240 - spHit.position.z| > 1/10 ∨
        spHit.momentum.z ≤ 0 then
      ecalTrackLoop rest
    else if spHit.pdgID = 22 ∨ spHit.pdgID = 2112 then
      ecalTrackLoop rest
    else
      some spHit

/-- The second loop of `PFTrackProducer::produce` over `hcalSpHits`;
a textual duplicate of the first in the source. -/
def hcalTrackLoop : List SimTrackerHit → Option SimTrackerHit
  | [] => none
  | spHit :: rest =>
    if spHit.trackID ≠ 1 ∨ |240 - spHit.position.z| > 1/10 ∨
        spHit.momentum.z ≤ 0 then
      hcalTrackLoop rest
    else if spHit.pdgID = 22 ∨ spHit.pdgID = 2112 then
      hcalTrackLoop rest
    else
      some spHit

/-- The call `std::sort(pfTracks.begin(), pfTracks.end(), comparator)` with comparator `getP(a) > getP(b)`,
specialised to the at-most-two-element vectors `produce` builds: the pair is
swapped exactly when the comparator orders the second element first.
`getP a > getP b ↔ getP2 a > getP2 b` since both momenta are nonnegative. -/
def sortTracks : List SimTrackerHit → List SimTrackerHit
  | [a, b] => if getP2 a < getP2 b then [b, a] else [a, b]
  | l => l

/-- The producer's configurable members from `PFTrackProducer.h` as used by
the `.cxx`: three collection-name strings set by `configure`, and the
`truthTracking_` flag, which `configure` does not touch. -/
structure ProducerState where
  inputTrackCollName : String
  input_pass_name : String
  outputTrackCollName : String
  truthTracking : Bool
deriving DecidableEq, Repr

/-- The type `framework::config::Parameters`: a flat mapping of named parameters
(string-valued and boolean-valued), per the configuration interface. -/
structure Parameters where
  strings : String → String
  bools : String → Bool

/-- The operation `PFTrackProducer::configure`: reads `inputTrackCollName`,
`input_pass_name` and `outputTrackCollName` from the parameters; no other
member is assigned. -/
def configure (ps : Parameters) (s : ProducerState) : ProducerState :=
  { s with
    inputTrackCollName := ps.strings "inputTrackCollName"
    input_pass_name := ps.strings "input_pass_name"
    outputTrackCollName := ps.strings "outputTrackCollName" }

/-- Modelled from the spec: the external event store (`framework::Event`),
out of scope for the core — "`exists(name) -> bool`,
`getCollection<T>(name, pass) -> ordered sequence of T`,
`add(name, sequence of T)`".  A single reconstruction pass suffices for
these claims, so collections are keyed by name alone and the pass
argument is ignored by the lookup. -/
structure Event where
  store : String → Option (List SimTrackerHit)

/-- Modelled from the spec: `exists(name) -> bool`. -/
def Event.existsColl (e : Event) (n : String) : Bool :=
  (e.store n).isSome

/-- Modelled from the spec: `getCollection<T>(name, pass)` returns the
named ordered sequence. -/
def Event.getCollection (e : Event) (n _pass : String) : List SimTrackerHit :=
  (e.store n).getD []

/-- Modelled from the spec: `add(name, sequence of T)` publishes the
sequence under the name. -/
def Event.add (e : Event) (n : String) (c : List SimTrackerHit) : Event :=
  ⟨fun m => if m = n then some c else e.store m⟩

/-- The `pfTracks` vector as built by `PFTrackProducer::produce` before the
sort: under `truthTracking_`, the first accepted hit of each region in
region order; otherwise empty. -/
def pfTracksOf (s : ProducerState) (ecalSpHits hcalSpHits : List SimTrackerHit) :
    List SimTrackerHit :=
  if s.truthTracking then
    (ecalTrackLoop ecalSpHits).toList ++ (hcalTrackLoop hcalSpHits).toList
  else
    []

/-- The operation `PFTrackProducer::produce`: abort if the input collection is absent
(the fatal log is an external effect); otherwise read the configured input
collection and the hard-coded `"HcalScoringPlaneHits"` collection, select,
sort, and publish under the configured output name. -/
def produce (s : ProducerState) (e : Event) : Event :=
  if e.existsColl s.inputTrackCollName = false then
    e
  else
    let ecalSpHits := e.getCollection s.inputTrackCollName s.input_pass_name
    let hcalSpHits := e.getCollection "HcalScoringPlaneHits" s.input_pass_name
    e.add s.outputTrackCollName (sortTracks (pfTracksOf s ecalSpHits hcalSpHits))

/-- The published track list, as a function of the producer state and the
two input collections. -/
def tracksOut (s : ProducerState) (ecalSpHits hcalSpHits : List SimTrackerHit) :
    List SimTrackerHit :=
  sortTracks (pfTracksOf s ecalSpHits hcalSpHits)

/-! Sample records used by the closed witness theorems. -/

/-- Scenario A of the spec: primary electron crossing the scoring plane
moving forward. -/
def goodHit : SimTrackerHit :=
  ⟨1, 11, ⟨0, 0, 240⟩, ⟨0, 0, 5⟩⟩

/-- A secondary (trackID 2) hit, otherwise identical to `goodHit`. -/
def badHit : SimTrackerHit :=
  ⟨2, 11, ⟨0, 0, 240⟩, ⟨0, 0, 5⟩⟩

/-- A second eligible hit with smaller momentum magnitude. -/
def goodHit2 : SimTrackerHit :=
  ⟨1, 13, ⟨0, 0, 240⟩, ⟨0, 0, 2⟩⟩

/-- An eligible hit whose momentum magnitude equals `goodHit`'s
(|(0,3,4)| = |(0,0,5)| = 5) but with different fields. -/
def eqPHit : SimTrackerHit :=
  ⟨1, 13, ⟨0, 0, 240⟩, ⟨0, 3, 4⟩⟩

/-- A producer state with truth tracking enabled. -/
def sDefault : ProducerState :=
  ⟨"EcalScoringPlaneHits", "", "PFTracks", true⟩

/-- A producer state with truth tracking disabled. -/
def sOff : ProducerState :=
  ⟨"EcalScoringPlaneHits", "", "PFTracks", false⟩

/-- An event whose store is empty. -/
def emptyEvent : Event :=
  ⟨fun _ => none⟩

/-- An event holding one eligible hit in the ecal collection and nothing
else. -/
def oneHitEvent : Event :=
  ⟨fun n => if n = "EcalScoringPlaneHits" then some [goodHit] else none⟩

/-- Parameters mapping every string parameter to "n" and every boolean,
the truth-tracking flag included, to true. -/
def pFlagOn : Parameters :=
  ⟨fun _ => "n", fun _ => true⟩

/-- As `pFlagOn` but with every boolean parameter, the truth-tracking flag
included, false. -/
def pFlagOff : Parameters :=
  ⟨fun _ => "n", fun _ => false⟩

/-!
The ParticleFlow builder.  `ParticleFlow.h` declares the component — its
configuration members (matching distance and energy-ratio band, the two
`TGraph` correction curves) and the candidate-filling operations — but the
repository does not carry `ParticleFlow.cxx`, so the matching body below
is modelled from the specification's matching algorithm.
-/

/-- Modelled from the spec: a calorimeter cluster (`ldmx::CaloCluster`) —
an aggregated energy deposit with a total energy, a spatial centroid, and
a cluster identity used to prevent re-use. -/
structure CaloCluster where
  cid : Nat
  energy : ℚ
  centroid : Vec3
deriving DecidableEq, Repr

/-- Modelled from the spec: the candidate type/role — track-seeded,
EM-calo-seeded, hadronic-calo-seeded, or combined. -/
inductive CandKind where
  | trackOnly
  | emOnly
  | hadOnly
  | combined
deriving DecidableEq, Repr

/-- Modelled from the spec: the fused output record
(`ldmx::PFCandidate`) — type/role, corrected energy, momentum, and
references to the contributing track and cluster(s). -/
structure PFCandidate where
  kind : CandKind
  trackRef : Option SimTrackerHit
  clusterIds : List Nat
  energy : ℚ
  momentum : Vec3
deriving DecidableEq, Repr

/-- The `ParticleFlow` configuration members declared in `ParticleFlow.h`
that the matching uses: spatial matching distance, the energy-ratio band,
and the two energy-correction curves (`TGraph` lookups, modelled as
rational functions, queried and never mutated). -/
structure PFConfig where
  tkHadCaloMatchDist : ℚ
  tkHadCaloMinEnergyRatio : ℚ
  tkHadCaloMaxEnergyRatio : ℚ
  eCorr : ℚ → ℚ
  hCorr : ℚ → ℚ

/-- Squared Euclidean distance between two points; squares are compared
throughout in place of irrational square roots. -/
def distSq (v w : Vec3) : ℚ :=
  (v.x - w.x) ^ 2 + (v.y - w.y) ^ 2 + (v.z - w.z) ^ 2

/-- Modelled from the spec: scan for the nearest cluster within the
configured spatial-distance threshold, keeping an earlier candidate unless
a later one is strictly closer. -/
def nearestGo (cfg : PFConfig) (t : SimTrackerHit) :
    Option CaloCluster → List CaloCluster → Option CaloCluster
  | acc, [] => acc
  | acc, c :: cs =>
    match acc with
    | none =>
      if distSq t.position c.centroid ≤ cfg.tkHadCaloMatchDist ^ 2 then
        nearestGo cfg t (some c) cs
      else
        nearestGo cfg t none cs
    | some b =>
      if distSq t.position c.centroid ≤ cfg.tkHadCaloMatchDist ^ 2 ∧
          distSq t.position c.centroid < distSq t.position b.centroid then
        nearestGo cfg t (some c) cs
      else
        nearestGo cfg t (some b) cs

/-- Modelled from the spec: "for each unmatched track, find the nearest
unmatched hadronic cluster within a configured spatial-distance
threshold". -/
def nearestWithin (cfg : PFConfig) (t : SimTrackerHit)
    (had : List CaloCluster) : Option CaloCluster :=
  nearestGo cfg t none had

/-- Modelled from the spec: the energy-to-momentum plausibility band —
the cluster energy must lie within [min·p, max·p] for the track's momentum
magnitude p; stated on squares to stay within the rationals (equivalent
for nonnegative energies and ratio bounds). -/
def ratioOK (cfg : PFConfig) (t : SimTrackerHit) (c : CaloCluster) : Prop :=
  cfg.tkHadCaloMinEnergyRatio ^ 2 * getP2 t ≤ c.energy ^ 2 ∧
    c.energy ^ 2 ≤ cfg.tkHadCaloMaxEnergyRatio ^ 2 * getP2 t

instance (cfg : PFConfig) (t : SimTrackerHit) (c : CaloCluster) :
    Decidable (ratioOK cfg t c) := by
  unfold ratioOK; infer_instance

/-- Modelled from the spec: the combined candidate of an accepted match —
the track's momentum and the cluster's corrected energy, consuming both
(`fillCandTrack` then `fillCandHadCalo`). -/
def combinedCand (cfg : PFConfig) (t : SimTrackerHit)
    (c : CaloCluster) : PFCandidate :=
  ⟨CandKind.combined, some t, [c.cid], cfg.hCorr c.energy, t.momentum⟩

/-- Modelled from the spec: a track without an acceptable hadronic match,
emitted as a track-only candidate with zero/unset energy. -/
def trackOnlyCand (t : SimTrackerHit) : PFCandidate :=
  ⟨CandKind.trackOnly, some t, [], 0, t.momentum⟩

/-- Modelled from the spec: an unconsumed hadronic cluster emitted as a
hadronic-only candidate with corrected energy. -/
def hadOnlyCand (cfg : PFConfig) (c : CaloCluster) : PFCandidate :=
  ⟨CandKind.hadOnly, none, [c.cid], cfg.hCorr c.energy, c.centroid⟩

/-- Modelled from the spec: an unconsumed EM cluster emitted as an EM-only
candidate after independent energy correction. -/
def emOnlyCand (cfg : PFConfig) (c : CaloCluster) : PFCandidate :=
  ⟨CandKind.emOnly, none, [c.cid], cfg.eCorr c.energy, c.centroid⟩

/-- Modelled from the spec: the track ↔ hadronic-cluster matching loop.
Returns the track-seeded candidates (one per track, in track order) and
the unconsumed hadronic clusters; an accepted match removes the consumed
cluster from the pool. -/
def matchLoop (cfg : PFConfig) :
    List SimTrackerHit → List CaloCluster →
      List PFCandidate × List CaloCluster
  | [], had => ([], had)
  | t :: ts, had =>
    match nearestWithin cfg t had with
    | some c =>
      if ratioOK cfg t c then
        let r := matchLoop cfg ts (had.erase c)
        (combinedCand cfg t c :: r.1, r.2)
      else
        let r := matchLoop cfg ts had
        (trackOnlyCand t :: r.1, r.2)
    | none =>
      let r := matchLoop cfg ts had
      (trackOnlyCand t :: r.1, r.2)

/-- Modelled from the spec: the full builder — matched and track-only
candidates, then the remaining hadronic clusters as hadronic-only
candidates, then the remaining EM clusters as EM-only candidates (EM
clusters are not matched against tracks in this model). -/
def buildCandidates (cfg : PFConfig) (tracks : List SimTrackerHit)
    (em had : List CaloCluster) : List PFCandidate :=
  let r := matchLoop cfg tracks had
  r.1 ++ r.2.map (hadOnlyCand cfg) ++ em.map (emOnlyCand cfg)

/-- All cluster identities referenced by a candidate list. -/
def clusterIdsOf (cands : List PFCandidate) : List Nat :=
  (cands.map PFCandidate.clusterIds).flatten

/-- All track references of a candidate list. -/
def trackRefsOf (cands : List PFCandidate) : List SimTrackerHit :=
  cands.filterMap PFCandidate.trackRef

/-- A concrete builder configuration with identity correction curves. -/
def pfCfg : PFConfig :=
  ⟨10, 0, 100, fun x => x, fun x => x⟩

/-- A concrete EM cluster with identity 0. -/
def emCl : CaloCluster :=
  ⟨0, 2, ⟨0, 0, 300⟩⟩

/-- A concrete hadronic cluster with identity 1, near `goodHit`. -/
def hadCl : CaloCluster :=
  ⟨1, 3, ⟨0, 0, 242⟩⟩

/-! Helper lemmas about the selection loops and the sort. -/

lemma passes_iff (h : SimTrackerHit) :
    passesFilters h ↔
      (¬(h.trackID ≠ 1 ∨ |240 - h.position.z| > 1/10 ∨ h.momentum.z ≤ 0) ∧
        ¬(h.pdgID = 22 ∨ h.pdgID = 2112)) := by
  unfold passesFilters
  push_neg
  tauto

lemma ecalTrackLoop_cons (h : SimTrackerHit) (rest : List SimTrackerHit) :
    ecalTrackLoop (h :: rest) =
      if passesFilters h then some h else ecalTrackLoop rest := by
  by_cases hp : passesFilters h
  · rw [if_pos hp]
    rw [passes_iff] at hp
    simp only [ecalTrackLoop, if_neg hp.1, if_neg hp.2]
  · rw [if_neg hp]
    rw [passes_iff, not_and_or, not_not, not_not] at hp
    simp only [ecalTrackLoop]
    rcases hp with hp | hp
    · rw [if_pos hp]
    · by_cases h1 : (h.trackID ≠ 1 ∨ |240 - h.position.z| > 1/10 ∨
          h.momentum.z ≤ 0)
      · rw [if_pos h1]
      · rw [if_neg h1, if_pos hp]

lemma hcalTrackLoop_eq (l : List SimTrackerHit) :
    hcalTrackLoop l = ecalTrackLoop l := by
  induction l with
  | nil => rfl
  | cons h t ih => simp only [ecalTrackLoop, hcalTrackLoop, ih]

lemma ecalTrackLoop_first (pre post : List SimTrackerHit) (h : SimTrackerHit)
    (hpre : ∀ x ∈ pre, ¬ passesFilters x) (hh : passesFilters h) :
    ecalTrackLoop (pre ++ h :: post) = some h := by
  induction pre with
  | nil => simp [ecalTrackLoop_cons, hh]
  | cons a t ih =>
    have ha := hpre a (by simp)
    rw [List.cons_append, ecalTrackLoop_cons, if_neg ha]
    exact ih (fun x hx => hpre x (by simp [hx]))

lemma ecalTrackLoop_some_passes {l : List SimTrackerHit} {h : SimTrackerHit}
    (hl : ecalTrackLoop l = some h) : passesFilters h := by
  induction l with
  | nil => simp [ecalTrackLoop] at hl
  | cons a t ih =>
    rw [ecalTrackLoop_cons] at hl
    by_cases hp : passesFilters a
    · rw [if_pos hp] at hl
      injection hl with he
      exact he ▸ hp
    · rw [if_neg hp] at hl
      exact ih hl

lemma ecalTrackLoop_some_mem {l : List SimTrackerHit} {h : SimTrackerHit}
    (hl : ecalTrackLoop l = some h) : h ∈ l := by
  induction l with
  | nil => simp [ecalTrackLoop] at hl
  | cons a t ih =>
    rw [ecalTrackLoop_cons] at hl
    by_cases hp : passesFilters a
    · rw [if_pos hp] at hl
      injection hl with he
      exact he ▸ List.mem_cons_self a t
    · rw [if_neg hp] at hl
      exact List.mem_cons_of_mem a (ih hl)

lemma sortTracks_pair (a b : SimTrackerHit) :
    sortTracks [a, b] = if getP2 a < getP2 b then [b, a] else [a, b] := rfl

lemma sortTracks_perm (l : List SimTrackerHit) : List.Perm (sortTracks l) l := by
  rcases l with _ | ⟨a, _ | ⟨b, _ | ⟨c, t⟩⟩⟩
  · exact List.Perm.refl _
  · exact List.Perm.refl _
  · rw [sortTracks_pair]
    by_cases hab : getP2 a < getP2 b
    · rw [if_pos hab]
      exact List.Perm.swap a b []
    · rw [if_neg hab]
  · exact List.Perm.refl _

lemma toList_length_le_one (o : Option SimTrackerHit) : o.toList.length ≤ 1 := by
  cases o <;> simp

/-! Evaluation lemmas for the sample records (rational arithmetic does not
reduce in the kernel, so these are discharged by `norm_num`). -/

lemma goodHit_passes : passesFilters goodHit := by
  unfold passesFilters goodHit
  norm_num

lemma goodHit2_passes : passesFilters goodHit2 := by
  unfold passesFilters goodHit2
  norm_num

lemma eqPHit_passes : passesFilters eqPHit := by
  unfold passesFilters eqPHit
  norm_num

lemma badHit_not_passes : ¬ passesFilters badHit := by
  unfold passesFilters badHit
  norm_num

lemma tracksOut_eval :
    tracksOut sDefault [goodHit] [goodHit2] = [goodHit, goodHit2] := by
  have h1 : ecalTrackLoop [goodHit] = some goodHit := by
    rw [ecalTrackLoop_cons, if_pos goodHit_passes]
  have h2 : hcalTrackLoop [goodHit2] = some goodHit2 := by
    rw [hcalTrackLoop_eq, ecalTrackLoop_cons, if_pos goodHit2_passes]
  have h3 : ¬ getP2 goodHit < getP2 goodHit2 := by
    unfold getP2 goodHit goodHit2
    norm_num
  unfold tracksOut pfTracksOf
  rw [if_pos (show sDefault.truthTracking = true from rfl), h1, h2]
  show sortTracks [goodHit, goodHit2] = _
  rw [sortTracks_pair, if_neg h3]

/-- C1: for every input hit sequence of a region, the selector picks the
first hit (in input order) passing all four filters — track id 1,
|240 - z| ≤ 0.1, positive longitudinal momentum, PDG id neither 22 nor
2112 — ignoring all later hits, and the hcal loop applies the same
predicate as the ecal loop. -/
theorem c1_first_match_selected (pre post : List SimTrackerHit)
    (h : SimTrackerHit) (hpre : ∀ x ∈ pre, ¬ passesFilters x)
    (hh : passesFilters h) :
    ecalTrackLoop (pre ++ h :: post) = some h ∧
      hcalTrackLoop (pre ++ h :: post) = some h ∧
      ∀ l, hcalTrackLoop l = ecalTrackLoop l := by
  refine ⟨ecalTrackLoop_first pre post h hpre hh, ?_, hcalTrackLoop_eq⟩
  rw [hcalTrackLoop_eq]
  exact ecalTrackLoop_first pre post h hpre hh

/-- Witness for C1 at a concrete hit list: the rejected secondary hit is
skipped, the eligible hit is selected, the later eligible hit ignored. -/
theorem c1_witness :
    (∀ x ∈ [badHit], ¬ passesFilters x) ∧ passesFilters goodHit ∧
      ecalTrackLoop ([badHit] ++ goodHit :: [goodHit2]) = some goodHit := by
  have h1 : ∀ x ∈ [badHit], ¬ passesFilters x := by
    simpa using badHit_not_passes
  have h2 : passesFilters goodHit := goodHit_passes
  exact ⟨h1, h2, (c1_first_match_selected [badHit] [goodHit2] goodHit h1 h2).1⟩

/-- C2: each region contributes at most one track, the output has at most
two tracks, and every published track passes all four filters. -/
theorem c2_output_invariants (s : ProducerState)
    (ecal hcal : List SimTrackerHit) :
    (ecalTrackLoop ecal).toList.length ≤ 1 ∧
      (hcalTrackLoop hcal).toList.length ≤ 1 ∧
      (tracksOut s ecal hcal).length ≤ 2 ∧
      ∀ t ∈ tracksOut s ecal hcal, passesFilters t := by
  refine ⟨toList_length_le_one _, toList_length_le_one _, ?_, ?_⟩
  · have hp := (sortTracks_perm (pfTracksOf s ecal hcal)).length_eq
    unfold tracksOut
    rw [hp]
    unfold pfTracksOf
    split
    · rw [List.length_append]
      have h1 := toList_length_le_one (ecalTrackLoop ecal)
      have h2 := toList_length_le_one (hcalTrackLoop hcal)
      omega
    · simp
  · intro t ht
    unfold tracksOut at ht
    have hm := (sortTracks_perm (pfTracksOf s ecal hcal)).mem_iff.mp ht
    unfold pfTracksOf at hm
    split at hm
    · rcases List.mem_append.mp hm with hme | hmh
      · cases he : ecalTrackLoop ecal with
        | none => rw [he] at hme; simp [Option.toList] at hme
        | some x =>
          rw [he] at hme
          simp [Option.toList] at hme
          exact hme ▸ ecalTrackLoop_some_passes he
      · cases hh : hcalTrackLoop hcal with
        | none => rw [hh] at hmh; simp [Option.toList] at hmh
        | some x =>
          rw [hh] at hmh
          simp [Option.toList] at hmh
          rw [hcalTrackLoop_eq] at hh
          exact hmh ▸ ecalTrackLoop_some_passes hh
    · simp at hm

/-- Witness for C2 at concrete collections. -/
theorem c2_witness :
    (tracksOut sDefault [goodHit] [goodHit2]).length ≤ 2 ∧
      passesFilters goodHit := by
  refine ⟨(c2_output_invariants sDefault [goodHit] [goodHit2]).2.2.1, ?_⟩
  exact (c2_output_invariants sDefault [goodHit] [goodHit2]).2.2.2 goodHit
    (by rw [tracksOut_eval]; exact List.mem_cons_self goodHit [goodHit2])

/-- C3: the published sequence is non-increasing in momentum magnitude
sqrt(px²+py²+pz²). -/
theorem c3_descending_momentum (s : ProducerState)
    (ecal hcal : List SimTrackerHit) :
    List.Chain'
      (fun a b => Real.sqrt ((getP2 b : ℝ)) ≤ Real.sqrt ((getP2 a : ℝ)))
      (tracksOut s ecal hcal) := by
  have key : ∀ a b : SimTrackerHit, getP2 b ≤ getP2 a →
      Real.sqrt ((getP2 b : ℝ)) ≤ Real.sqrt ((getP2 a : ℝ)) := by
    intro a b hab
    exact Real.sqrt_le_sqrt (by exact_mod_cast hab)
  unfold tracksOut pfTracksOf
  split
  · cases he : ecalTrackLoop ecal with
    | none =>
      cases hh : hcalTrackLoop hcal with
      | none => exact List.chain'_nil
      | some b => exact List.chain'_singleton b
    | some a =>
      cases hh : hcalTrackLoop hcal with
      | none => exact List.chain'_singleton a
      | some b =>
        have hs : List.Chain'
            (fun a b =>
              Real.sqrt ((getP2 b : ℝ)) ≤ Real.sqrt ((getP2 a : ℝ)))
            (sortTracks [a, b]) := by
          rw [sortTracks_pair]
          by_cases hab : getP2 a < getP2 b
          · rw [if_pos hab]
            exact List.chain'_pair.mpr (key b a (le_of_lt hab))
          · rw [if_neg hab]
            exact List.chain'_pair.mpr (key a b (not_lt.mp hab))
        exact hs
  · exact List.chain'_nil

/-- C4: when the configured input collection is absent from the event
store, `produce` returns early and the store is left unchanged — no output
collection is published (the fatal log is an external effect). -/
theorem c4_missing_input_aborts (s : ProducerState) (e : Event)
    (h : e.existsColl s.inputTrackCollName = false) : produce s e = e := by
  unfold produce
  rw [if_pos h]

/-- Witness for C4 on the empty event store. -/
theorem c4_witness :
    emptyEvent.existsColl sDefault.inputTrackCollName = false ∧
      produce sDefault emptyEvent = emptyEvent :=
  ⟨rfl, c4_missing_input_aborts sDefault emptyEvent rfl⟩

/-! Further helper lemmas about `produce` and the event store. -/

lemma produce_eq (s : ProducerState) (e : Event)
    (hex : e.existsColl s.inputTrackCollName = true) :
    produce s e = e.add s.outputTrackCollName
      (tracksOut s (e.getCollection s.inputTrackCollName s.input_pass_name)
        (e.getCollection "HcalScoringPlaneHits" s.input_pass_name)) := by
  unfold produce tracksOut
  rw [if_neg (by simp [hex])]

lemma Event.add_store_self (e : Event) (n : String)
    (c : List SimTrackerHit) : (e.add n c).store n = some c := by
  unfold Event.add
  simp

lemma Event.add_store_other (e : Event) (n m : String)
    (c : List SimTrackerHit) (h : m ≠ n) :
    (e.add n c).store m = e.store m := by
  unfold Event.add
  simp [h]

lemma mem_tracksOut {s : ProducerState} {ecal hcal : List SimTrackerHit}
    {t : SimTrackerHit} (ht : t ∈ tracksOut s ecal hcal) :
    t ∈ ecal ∨ t ∈ hcal := by
  unfold tracksOut at ht
  have hm := (sortTracks_perm (pfTracksOf s ecal hcal)).mem_iff.mp ht
  unfold pfTracksOf at hm
  split at hm
  · rcases List.mem_append.mp hm with hme | hmh
    · cases he : ecalTrackLoop ecal with
      | none => rw [he] at hme; simp [Option.toList] at hme
      | some x =>
        rw [he] at hme
        simp [Option.toList] at hme
        exact Or.inl (hme ▸ ecalTrackLoop_some_mem he)
    · cases hh : hcalTrackLoop hcal with
      | none => rw [hh] at hmh; simp [Option.toList] at hmh
      | some x =>
        rw [hh] at hmh
        simp [Option.toList] at hmh
        rw [hcalTrackLoop_eq] at hh
        exact Or.inr (hmh ▸ ecalTrackLoop_some_mem hh)
  · simp at hm

lemma oneHit_exists :
    oneHitEvent.existsColl "EcalScoringPlaneHits" = true := by
  simp [oneHitEvent, Event.existsColl]

lemma produce_oneHit_eval :
    (produce sDefault oneHitEvent).store sDefault.outputTrackCollName =
      some [goodHit] := by
  rw [produce_eq sDefault oneHitEvent oneHit_exists, Event.add_store_self]
  have hec : oneHitEvent.getCollection sDefault.inputTrackCollName
      sDefault.input_pass_name = [goodHit] := by
    simp [oneHitEvent, Event.getCollection, sDefault]
  have hhc : oneHitEvent.getCollection "HcalScoringPlaneHits"
      sDefault.input_pass_name = [] := by
    simp [oneHitEvent, Event.getCollection]
  rw [hec, hhc]
  have h1 : ecalTrackLoop [goodHit] = some goodHit := by
    rw [ecalTrackLoop_cons, if_pos goodHit_passes]
  unfold tracksOut pfTracksOf
  rw [if_pos (show sDefault.truthTracking = true from rfl), h1]
  rfl

/-- C6: the producer is deterministic — runs on stores holding equal
collections produce equal outputs — and equal-momentum-magnitude pairs are
left in input order by the sort (stability on the at-most-two-element
track vectors). -/
theorem c6_deterministic_stable :
    (∀ (s : ProducerState) (e₁ e₂ : Event),
        (∀ n, e₁.store n = e₂.store n) → produce s e₁ = produce s e₂) ∧
      ∀ a b, getP2 a = getP2 b → sortTracks [a, b] = [a, b] := by
  constructor
  · intro s e₁ e₂ hst
    have he : e₁ = e₂ := by
      cases e₁
      cases e₂
      simp only [Event.mk.injEq]
      exact funext hst
    rw [he]
  · intro a b hab
    rw [sortTracks_pair, if_neg (by rw [hab]; exact lt_irrefl _)]

/-- Witness for C6: two distinct hits of equal momentum magnitude 5 keep
their input order, and a rerun on an identical store gives the identical
result. -/
theorem c6_witness :
    getP2 goodHit = getP2 eqPHit ∧
      sortTracks [goodHit, eqPHit] = [goodHit, eqPHit] ∧
      produce sDefault oneHitEvent = produce sDefault oneHitEvent := by
  have h : getP2 goodHit = getP2 eqPHit := by
    unfold getP2 goodHit eqPHit
    norm_num
  exact ⟨h, c6_deterministic_stable.2 goodHit eqPHit h,
    c6_deterministic_stable.1 sDefault oneHitEvent oneHitEvent
      (fun _ => rfl)⟩

/-- C7 counterexample: two parameter sets disagreeing on the
"truthTracking" boolean configure to identical producer states, and
`configure` leaves the `truthTracking_` member at its prior value — the
truth-tracking enable flag is not consumed by `configure`, contrary to the
claim (nor is any second input-collection name: `configure` reads only
`inputTrackCollName`, `input_pass_name` and `outputTrackCollName`). -/
theorem c7_counterexample :
    pFlagOn.bools "truthTracking" ≠ pFlagOff.bools "truthTracking" ∧
      configure pFlagOn sDefault = configure pFlagOff sDefault ∧
      (configure pFlagOn sOff).truthTracking = sOff.truthTracking := by
  refine ⟨?_, rfl, rfl⟩
  simp [pFlagOn, pFlagOff]

/-- C7 amended: `configure` consumes exactly the three string parameters
`inputTrackCollName`, `input_pass_name` and `outputTrackCollName` — its
result depends on no other parameter, boolean parameters included — and it
leaves the truth-tracking member unchanged; the hadronic-region input
collection name is the hard-coded literal `"HcalScoringPlaneHits"` in
`produce`. -/
theorem c7_amended_configure_consumes_three (p q : Parameters)
    (s : ProducerState)
    (h1 : p.strings "inputTrackCollName" = q.strings "inputTrackCollName")
    (h2 : p.strings "input_pass_name" = q.strings "input_pass_name")
    (h3 : p.strings "outputTrackCollName" = q.strings "outputTrackCollName") :
    configure p s = configure q s ∧
      (configure p s).truthTracking = s.truthTracking := by
  unfold configure
  exact ⟨by rw [h1, h2, h3], rfl⟩

/-- Witness for the amended C7. -/
theorem c7_witness :
    configure pFlagOn sDefault = configure pFlagOff sDefault ∧
      (configure pFlagOn sDefault).truthTracking = sDefault.truthTracking :=
  c7_amended_configure_consumes_three pFlagOn pFlagOff sDefault rfl rfl rfl

/-- C8: with the truth-tracking flag disabled and the input collection
present, `produce` publishes an empty track list (zero tracks, not an
abort). -/
theorem c8_flag_off_empty_output (s : ProducerState) (e : Event)
    (hflag : s.truthTracking = false)
    (hex : e.existsColl s.inputTrackCollName = true) :
    (produce s e).store s.outputTrackCollName = some [] := by
  rw [produce_eq s e hex, Event.add_store_self]
  unfold tracksOut pfTracksOf
  rw [if_neg (by simp [hflag])]
  rfl

/-- Witness for C8 on a store holding one eligible hit. -/
theorem c8_witness :
    sOff.truthTracking = false ∧
      oneHitEvent.existsColl sOff.inputTrackCollName = true ∧
      (produce sOff oneHitEvent).store sOff.outputTrackCollName = some [] := by
  have hex : oneHitEvent.existsColl sOff.inputTrackCollName = true :=
    oneHit_exists
  exact ⟨rfl, hex, c8_flag_off_empty_output sOff oneHitEvent rfl hex⟩

/-- C9: every published track is literally one of the hit records of the
two input collections — the hit is reused field for field, no attribute
modified. -/
theorem c9_tracks_are_input_hits (s : ProducerState) (e : Event)
    (ts : List SimTrackerHit)
    (hex : e.existsColl s.inputTrackCollName = true)
    (hpub : (produce s e).store s.outputTrackCollName = some ts) :
    ∀ t ∈ ts,
      t ∈ e.getCollection s.inputTrackCollName s.input_pass_name ∨
        t ∈ e.getCollection "HcalScoringPlaneHits" s.input_pass_name := by
  rw [produce_eq s e hex, Event.add_store_self] at hpub
  injection hpub with hts
  intro t ht
  rw [← hts] at ht
  exact mem_tracksOut ht

/-- Witness for C9: the single published track is the stored input hit. -/
theorem c9_witness :
    goodHit ∈ oneHitEvent.getCollection sDefault.inputTrackCollName
        sDefault.input_pass_name ∨
      goodHit ∈ oneHitEvent.getCollection "HcalScoringPlaneHits"
        sDefault.input_pass_name :=
  c9_tracks_are_input_hits sDefault oneHitEvent [goodHit] oneHit_exists
    produce_oneHit_eval goodHit (List.mem_cons_self goodHit [])

/-- C10: whenever the input collection exists, `produce` publishes a
collection under the configured output name (empty rather than absent when
nothing is selected) and leaves every other name in the store unchanged. -/
theorem c10_always_publishes (s : ProducerState) (e : Event)
    (hex : e.existsColl s.inputTrackCollName = true) :
    ((produce s e).store s.outputTrackCollName).isSome = true ∧
      ∀ n, n ≠ s.outputTrackCollName → (produce s e).store n = e.store n := by
  rw [produce_eq s e hex]
  constructor
  · rw [Event.add_store_self]
    rfl
  · intro n hn
    exact Event.add_store_other e _ n _ hn

/-! Helper lemmas for the ParticleFlow builder. -/

lemma clusterIdsOf_nil : clusterIdsOf [] = [] := rfl

lemma clusterIdsOf_cons (c : PFCandidate) (cs : List PFCandidate) :
    clusterIdsOf (c :: cs) = c.clusterIds ++ clusterIdsOf cs := by
  simp [clusterIdsOf]

lemma clusterIdsOf_append (a b : List PFCandidate) :
    clusterIdsOf (a ++ b) = clusterIdsOf a ++ clusterIdsOf b := by
  simp [clusterIdsOf]

lemma trackRefsOf_cons (c : PFCandidate) (cs : List PFCandidate) :
    trackRefsOf (c :: cs) = c.trackRef.toList ++ trackRefsOf cs := by
  cases h : c.trackRef <;> simp [trackRefsOf, h, Option.toList]

lemma trackRefsOf_append (a b : List PFCandidate) :
    trackRefsOf (a ++ b) = trackRefsOf a ++ trackRefsOf b := by
  simp [trackRefsOf]

lemma idsOf_map_hadOnly (cfg : PFConfig) (l : List CaloCluster) :
    clusterIdsOf (l.map (hadOnlyCand cfg)) = l.map CaloCluster.cid := by
  induction l with
  | nil => rfl
  | cons c cs ih =>
    rw [List.map_cons, clusterIdsOf_cons, ih]
    rfl

lemma idsOf_map_emOnly (cfg : PFConfig) (l : List CaloCluster) :
    clusterIdsOf (l.map (emOnlyCand cfg)) = l.map CaloCluster.cid := by
  induction l with
  | nil => rfl
  | cons c cs ih =>
    rw [List.map_cons, clusterIdsOf_cons, ih]
    rfl

lemma trackRefsOf_map_hadOnly (cfg : PFConfig) (l : List CaloCluster) :
    trackRefsOf (l.map (hadOnlyCand cfg)) = [] := by
  induction l with
  | nil => rfl
  | cons c cs ih => rw [List.map_cons, trackRefsOf_cons, ih]; rfl

lemma trackRefsOf_map_emOnly (cfg : PFConfig) (l : List CaloCluster) :
    trackRefsOf (l.map (emOnlyCand cfg)) = [] := by
  induction l with
  | nil => rfl
  | cons c cs ih => rw [List.map_cons, trackRefsOf_cons, ih]; rfl

lemma nearestGo_mem (cfg : PFConfig) (t : SimTrackerHit) :
    ∀ (l : List CaloCluster) (acc : Option CaloCluster) (c : CaloCluster),
      nearestGo cfg t acc l = some c → c ∈ l ∨ acc = some c := by
  intro l
  induction l with
  | nil =>
    intro acc c h
    exact Or.inr h
  | cons a as ih =>
    intro acc c h
    cases acc with
    | none =>
      simp only [nearestGo] at h
      split at h
      · rcases ih (some a) c h with hm | he
        · exact Or.inl (List.mem_cons_of_mem a hm)
        · injection he with he
          exact Or.inl (he ▸ List.mem_cons_self a as)
      · rcases ih none c h with hm | he
        · exact Or.inl (List.mem_cons_of_mem a hm)
        · cases he
    | some b =>
      simp only [nearestGo] at h
      split at h
      · rcases ih (some a) c h with hm | he
        · exact Or.inl (List.mem_cons_of_mem a hm)
        · injection he with he
          exact Or.inl (he ▸ List.mem_cons_self a as)
      · rcases ih (some b) c h with hm | he
        · exact Or.inl (List.mem_cons_of_mem a hm)
        · exact Or.inr he

lemma nearestWithin_mem {cfg : PFConfig} {t : SimTrackerHit}
    {had : List CaloCluster} {c : CaloCluster}
    (h : nearestWithin cfg t had = some c) : c ∈ had := by
  rcases nearestGo_mem cfg t had none c h with hm | he
  · exact hm
  · cases he

lemma matchLoop_ids_perm (cfg : PFConfig) :
    ∀ (ts : List SimTrackerHit) (had : List CaloCluster),
      List.Perm
        (clusterIdsOf (matchLoop cfg ts had).1 ++
          ((matchLoop cfg ts had).2.map CaloCluster.cid))
        (had.map CaloCluster.cid) := by
  intro ts
  induction ts with
  | nil =>
    intro had
    simp [matchLoop, clusterIdsOf]
  | cons t ts ih =>
    intro had
    simp only [matchLoop]
    cases hn : nearestWithin cfg t had with
    | none =>
      rw [clusterIdsOf_cons]
      show List.Perm (([] ++ clusterIdsOf (matchLoop cfg ts had).1) ++ _) _
      rw [List.nil_append]
      exact ih had
    | some c =>
      dsimp only
      by_cases hr : ratioOK cfg t c
      · rw [if_pos hr, clusterIdsOf_cons]
        have hcmem : c ∈ had := nearestWithin_mem hn
        have hperm : List.Perm (had.map CaloCluster.cid)
            (c.cid :: (had.erase c).map CaloCluster.cid) := by
          have := (List.perm_cons_erase hcmem).map CaloCluster.cid
          simpa using this
        refine List.Perm.trans ?_ hperm.symm
        show List.Perm (([c.cid] ++ clusterIdsOf (matchLoop cfg ts
          (had.erase c)).1) ++ _) _
        rw [List.singleton_append, List.cons_append]
        exact (ih (had.erase c)).cons c.cid
      · rw [if_neg hr, clusterIdsOf_cons]
        show List.Perm (([] ++ clusterIdsOf (matchLoop cfg ts had).1) ++ _) _
        rw [List.nil_append]
        exact ih had

lemma matchLoop_trackRefs (cfg : PFConfig) :
    ∀ (ts : List SimTrackerHit) (had : List CaloCluster),
      trackRefsOf (matchLoop cfg ts had).1 = ts := by
  intro ts
  induction ts with
  | nil => intro had; rfl
  | cons t ts ih =>
    intro had
    simp only [matchLoop]
    cases hn : nearestWithin cfg t had with
    | none =>
      rw [trackRefsOf_cons, ih had]
      rfl
    | some c =>
      dsimp only
      by_cases hr : ratioOK cfg t c
      · rw [if_pos hr, trackRefsOf_cons, ih (had.erase c)]
        rfl
      · rw [if_neg hr, trackRefsOf_cons, ih had]
        rfl

/-- C5: when the input cluster identities are pairwise distinct, the
builder references no cluster identity in two candidates, and the track
references of the output are exactly the input tracks in order — each
track feeds exactly one candidate (a matched track yields one combined
candidate, not two).  Spec-modelled: the matching body is absent from the
repository sources. -/
theorem c5_no_double_counting (cfg : PFConfig) (tracks : List SimTrackerHit)
    (em had : List CaloCluster)
    (hids : ((em ++ had).map CaloCluster.cid).Nodup) :
    (clusterIdsOf (buildCandidates cfg tracks em had)).Nodup ∧
      trackRefsOf (buildCandidates cfg tracks em had) = tracks := by
  constructor
  · have hperm : List.Perm
        (clusterIdsOf (buildCandidates cfg tracks em had))
        ((em ++ had).map CaloCluster.cid) := by
      unfold buildCandidates
      rw [clusterIdsOf_append, clusterIdsOf_append, idsOf_map_hadOnly,
        idsOf_map_emOnly, List.map_append]
      refine List.perm_append_comm.trans ?_
      exact (matchLoop_ids_perm cfg tracks had).append_left
        (em.map CaloCluster.cid)
    exact (hperm.nodup_iff).mpr hids
  · unfold buildCandidates
    rw [trackRefsOf_append, trackRefsOf_append, trackRefsOf_map_hadOnly,
      trackRefsOf_map_emOnly, matchLoop_trackRefs]
    simp

/-- Witness for C5 at one track, one EM and one hadronic cluster with
distinct identities. -/
theorem c5_witness :
    (([emCl] ++ [hadCl]).map CaloCluster.cid).Nodup ∧
      (clusterIdsOf (buildCandidates pfCfg [goodHit] [emCl] [hadCl])).Nodup ∧
      trackRefsOf (buildCandidates pfCfg [goodHit] [emCl] [hadCl]) =
        [goodHit] := by
  have h : (([emCl] ++ [hadCl]).map CaloCluster.cid).Nodup := by
    simp [emCl, hadCl]
  have hc := c5_no_double_counting pfCfg [goodHit] [emCl] [hadCl] h
  exact ⟨h, hc.1, hc.2⟩

/-- Witness for C10 on a store holding one eligible hit. -/
theorem c10_witness :
    ((produce sDefault oneHitEvent).store
        sDefault.outputTrackCollName).isSome = true ∧
      (produce sDefault oneHitEvent).store "Other" =
        oneHitEvent.store "Other" := by
  have h := c10_always_publishes sDefault oneHitEvent oneHit_exists
  exact ⟨h.1, h.2 "Other" (by simp [sDefault])⟩

end Recon
